import Mathlib

/-!
Verification of the Mavis vocal-performance pipeline core
(`mavis/sheet_text.py`, `mavis/llm_processor.py`, `mavis/input_buffer.py`,
`mavis/output_buffer.py`, `mavis/pipeline.py`) against its specification.

Embedding conventions:
* Python `str` values are modelled as `List Char`; `str.isalpha`/`isupper`
  are modelled by `Char.isAlpha`/`Char.isUpper` (the ASCII fragment).
* Python floats (`duration_modifier`, buffer levels, rates, pitches) are
  modelled as exact rationals `ℚ`; the literals `0.2`, `0.8`, `2.0`, ...
  become `1/5`, `4/5`, `2`, ...
* `int(x)` on a nonnegative float is modelled by truncation (`pyInt`).
* Wall-clock timestamps (`time.monotonic()`) are passed explicitly as `ℚ`
  arguments; fields that no pipeline decision reads (`timestamp_ms` on
  keystrokes, the opaque audio bytes, the optional performance recording)
  are omitted from the state.
-/

namespace Mavis

/-- One buffered keystroke: character plus modifier flags
(`input_buffer.py`, items built by `InputBuffer.push`). -/
structure Key where
  char : Char
  shift : Bool := false
  ctrl : Bool := false
  alt : Bool := false
  deriving Repr, DecidableEq

/-- A parsed unit of Sheet Text with prosody fields
(`sheet_text.py`, dataclass `SheetTextToken`). -/
structure SheetTextToken where
  text : List Char
  emphasis : String := "none"
  sustain : Bool := false
  harmony : Bool := false
  duration_modifier : ℚ := 1
  deriving Repr, DecidableEq

/-! ### Tokenizer (`sheet_text.py`) -/

/-- The character sequence typed in one group (`"".join(ch["char"] ...)`). -/
def rawText (g : List Key) : List Char := g.map (·.char)

/-- First pass of `parse`: split the chunk into groups separated by the
space character; empty groups are not kept. -/
def splitGroupsAux : List Key → List Key → List (List Key)
  | cur, [] => if cur.isEmpty then [] else [cur.reverse]
  | cur, ch :: rest =>
    if ch.char == ' ' then
      if cur.isEmpty then splitGroupsAux [] rest
      else cur.reverse :: splitGroupsAux [] rest
    else splitGroupsAux (ch :: cur) rest

def splitGroups (chars : List Key) : List (List Key) := splitGroupsAux [] chars

/-- The three-dot ellipsis marker. -/
def dots : List Char := ['.', '.', '.']

/-- `text.endswith("...")`. -/
def endsWithEllipsis (t : List Char) : Bool :=
  decide (3 ≤ t.length) && (t.drop (t.length - 3) == dots)

/-- `text[:-3]` (strip the trailing dots). -/
def sustainStrip (t : List Char) : List Char := t.take (t.length - 3)

/-- `text.startswith("[") and text.endswith("]")`. -/
def bracketWrapped (t : List Char) : Bool :=
  t.head? == some '[' && t.getLast? == some ']'

/-- `text[1:-1]` (strip one leading and one trailing character). -/
def stripOuter (t : List Char) : List Char := (t.drop 1).dropLast

/-- `text.startswith("_") and text.endswith("_") and len(text) > 2`. -/
def softWrapped (t : List Char) : Bool :=
  t.head? == some '_' && t.getLast? == some '_' && decide (2 < t.length)

/-- The text after the harmony-bracket step of `parse`. -/
def harmonyText (t : List Char) : List Char :=
  if bracketWrapped t then stripOuter t else t

/-- `any(ch.get("ctrl", False) for ch in group)`. -/
def anyCtrl (g : List Key) : Bool := g.any (·.ctrl)

/-- `any(ch.get("shift", False) for ch in group if ch["char"].isalpha())` —
note only the shift flags of alphabetic keystrokes are consulted. -/
def anyShiftAlpha (g : List Key) : Bool :=
  (g.filter (fun k => k.char.isAlpha)).any (·.shift)

/-- The loud-detection branch of `parse` (lines 90-99 of `sheet_text.py`). -/
def loudEmphasis (g : List Key) (text : List Char) : String :=
  let alpha := text.filter (·.isAlpha)
  if alpha.isEmpty then "none"
  else
    let allUpper := alpha.all (·.isUpper)
    if allUpper && (anyShiftAlpha g || decide (1 ≤ alpha.length)) then "loud"
    else if anyShiftAlpha g && alpha.any (·.isUpper) then "loud"
    else "none"

/-- Harmony / soft / loud processing of one group, applied to the text left
after the sustain step (`sheet_text.py` lines 76-109). -/
def tokenRest (g : List Key) (text : List Char) (sus : Bool) (dm : ℚ) :
    SheetTextToken :=
  let br := bracketWrapped text
  let text1 := harmonyText text
  let harmony := br || anyCtrl g
  if softWrapped text1 then
    { text := stripOuter text1, emphasis := "soft", sustain := sus,
      harmony := harmony, duration_modifier := dm }
  else
    { text := text1, emphasis := loudEmphasis g text1, sustain := sus,
      harmony := harmony, duration_modifier := dm }

/-- Full processing of one group, starting with the sustain (ellipsis) step
(`sheet_text.py` lines 53-109).  Every group yields exactly one token. -/
def groupToken (g : List Key) : SheetTextToken :=
  let text := rawText g
  if endsWithEllipsis text then
    let text1 := sustainStrip text
    if text1.isEmpty then
      { text := dots, emphasis := "none", sustain := true, harmony := false,
        duration_modifier := 2 }
    else tokenRest g text1 true 2
  else tokenRest g text false 1

/-- `tokens[j].emphasis = "shout"` applied to one token. -/
def setShout (t : SheetTextToken) : SheetTextToken :=
  { t with emphasis := "shout" }

/-- Bool test `tokens[i].emphasis == "loud"`. -/
def isLoud (t : SheetTextToken) : Bool := t.emphasis == "loud"

/-- Effect of the `_promote_shout` inner loop on one completed run of
consecutive loud tokens (promoted only when its length is at least 2). -/
def promoteRun (run : List SheetTextToken) : List SheetTextToken :=
  if 2 ≤ run.length then run.map setShout else run

/-- The scanning loop of `_promote_shout` (`sheet_text.py` lines 117-129),
with the current run of loud tokens carried as an accumulator. -/
def promoteAux : List SheetTextToken → List SheetTextToken → List SheetTextToken
  | acc, [] => promoteRun acc
  | acc, t :: rest =>
    if isLoud t then promoteAux (acc ++ [t]) rest
    else promoteRun acc ++ t :: promoteAux [] rest

/-- `_promote_shout` as a function on the token list. -/
def promoteShout (ts : List SheetTextToken) : List SheetTextToken :=
  promoteAux [] ts

/-- The token list built by the main loop of `parse`, before the post-pass. -/
def rawTokens (chars : List Key) : List SheetTextToken :=
  (splitGroups chars).map groupToken

/-- `parse` (`sheet_text.py` lines 22-114). -/
def parse (chars : List Key) : List SheetTextToken :=
  if chars.isEmpty then [] else promoteShout (rawTokens chars)

/-- `text_to_chars` (`sheet_text.py` lines 132-149): shift is inferred from
upper case, other modifiers are off. -/
def text_to_chars (s : List Char) : List Key :=
  s.map (fun c => { char := c, shift := c.isUpper, ctrl := false, alt := false })

/-! ### Phoneme expander (`llm_processor.py`) -/

/-- A single phoneme with timing and prosody parameters
(`llm_processor.py`, dataclass `PhonemeEvent`). -/
structure PhonemeEvent where
  phoneme : String
  start_ms : ℤ := 0
  duration_ms : ℤ := 100
  volume : ℚ := 1/2
  pitch_hz : ℚ := 220
  vibrato : Bool := false
  breathiness : ℚ := 0
  harmony_intervals : List ℤ := []
  deriving Repr, DecidableEq

/-- The `_WORD_PHONEMES` lookup table (about 50 common words). -/
def wordPhonemes : List (List Char × List String) :=
  [("the".toList, ["dh", "ax"]),
   ("a".toList, ["ax"]),
   ("an".toList, ["ae", "n"]),
   ("and".toList, ["ae", "n", "d"]),
   ("is".toList, ["ih", "z"]),
   ("are".toList, ["aa", "r"]),
   ("was".toList, ["w", "aa", "z"]),
   ("i".toList, ["ay"]),
   ("you".toList, ["y", "uw"]),
   ("it".toList, ["ih", "t"]),
   ("in".toList, ["ih", "n"]),
   ("to".toList, ["t", "uw"]),
   ("of".toList, ["ah", "v"]),
   ("for".toList, ["f", "ao", "r"]),
   ("on".toList, ["aa", "n"]),
   ("with".toList, ["w", "ih", "th"]),
   ("this".toList, ["dh", "ih", "s"]),
   ("that".toList, ["dh", "ae", "t"]),
   ("not".toList, ["n", "aa", "t"]),
   ("but".toList, ["b", "ah", "t"]),
   ("my".toList, ["m", "ay"]),
   ("all".toList, ["ao", "l"]),
   ("so".toList, ["s", "ow"]),
   ("up".toList, ["ah", "p"]),
   ("sun".toList, ["s", "ah", "n"]),
   ("rising".toList, ["r", "ay", "z", "ih", "ng"]),
   ("rises".toList, ["r", "ay", "z", "ih", "z"]),
   ("falling".toList, ["f", "ao", "l", "ih", "ng"]),
   ("down".toList, ["d", "aw", "n"]),
   ("hold".toList, ["hh", "ow", "l", "d"]),
   ("note".toList, ["n", "ow", "t"]),
   ("singing".toList, ["s", "ih", "ng", "ih", "ng"]),
   ("together".toList, ["t", "ax", "g", "eh", "dh", "er"]),
   ("again".toList, ["ax", "g", "eh", "n"]),
   ("hello".toList, ["hh", "ax", "l", "ow"]),
   ("world".toList, ["w", "er", "l", "d"]),
   ("gently".toList, ["jh", "eh", "n", "t", "l", "iy"]),
   ("said".toList, ["s", "eh", "d"]),
   ("stop".toList, ["s", "t", "aa", "p"]),
   ("twinkle".toList, ["t", "w", "ih", "ng", "k", "ax", "l"]),
   ("little".toList, ["l", "ih", "t", "ax", "l"]),
   ("star".toList, ["s", "t", "aa", "r"]),
   ("how".toList, ["hh", "aw"]),
   ("wonder".toList, ["w", "ah", "n", "d", "er"]),
   ("what".toList, ["w", "ah", "t"]),
   ("above".toList, ["ax", "b", "ah", "v"]),
   ("like".toList, ["l", "ay", "k"]),
   ("diamond".toList, ["d", "ay", "ax", "m", "ax", "n", "d"]),
   ("sky".toList, ["s", "k", "ay"])]

/-- `key in _WORD_PHONEMES` / `_WORD_PHONEMES[key]`. -/
def lookupWord (key : List Char) : Option (List String) :=
  (wordPhonemes.find? (fun p => p.1 == key)).map (·.2)

/-- `_word_to_phonemes` (`llm_processor.py` lines 86-92): dictionary lookup
on the lower-cased word, falling back to one phoneme per alphabetic letter. -/
def word_to_phonemes (word : List Char) : List String :=
  let key := word.map Char.toLower
  match lookupWord key with
  | some ps => ps
  | none => (word.filter (·.isAlpha)).map (fun c => c.toLower.toString)

/-- `_EMPHASIS_VOLUME.get(emphasis, 0.5)`. -/
def emphasisVolume (e : String) : ℚ :=
  if e = "none" then 1/2
  else if e = "soft" then 3/10
  else if e = "loud" then 4/5
  else if e = "shout" then 1
  else 1/2

/-- `_EMPHASIS_BREATHINESS.get(emphasis, 0.0)`. -/
def emphasisBreathiness (e : String) : ℚ :=
  if e = "none" then 0
  else if e = "soft" then 3/5
  else if e = "loud" then 0
  else if e = "shout" then 0
  else 0

/-- `_EMPHASIS_PITCH_MULT.get(emphasis, 1.0)`. -/
def emphasisPitchMult (e : String) : ℚ :=
  if e = "none" then 1
  else if e = "soft" then 9/10
  else if e = "loud" then 11/10
  else if e = "shout" then 6/5
  else 1

/-- Python `int()` applied to a rational (truncation toward zero). -/
def pyInt (q : ℚ) : ℤ := if q < 0 then ⌈q⌉ else ⌊q⌋

/-- Constructor parameters of `MockLLMProcessor`. -/
structure MockLLM where
  base_pitch_hz : ℚ := 220
  base_duration_ms : ℤ := 100
  deriving Repr, DecidableEq

/-- `int(self.base_duration_ms * token.duration_modifier)`. -/
def tokenDuration (cfg : MockLLM) (t : SheetTextToken) : ℤ :=
  pyInt ((cfg.base_duration_ms : ℚ) * t.duration_modifier)

/-- The event built for one phoneme of one token inside
`MockLLMProcessor.process`. -/
def mkEvent (cfg : MockLLM) (t : SheetTextToken) (cursor : ℤ) (ph : String) :
    PhonemeEvent :=
  { phoneme := ph
    start_ms := cursor
    duration_ms := tokenDuration cfg t
    volume := emphasisVolume t.emphasis
    pitch_hz := cfg.base_pitch_hz * emphasisPitchMult t.emphasis
    vibrato := t.sustain
    breathiness := emphasisBreathiness t.emphasis
    harmony_intervals := if t.harmony then [4, 7] else [] }

/-- The inner loop of `MockLLMProcessor.process`: emit one event per phoneme
of the token, advancing the cursor by the token's duration each time.
Returns the emitted events and the final cursor. -/
def emitPhonemes (cfg : MockLLM) (t : SheetTextToken) :
    ℤ → List String → List PhonemeEvent × ℤ
  | cursor, [] => ([], cursor)
  | cursor, ph :: rest =>
    let r := emitPhonemes cfg t (cursor + tokenDuration cfg t) rest
    (mkEvent cfg t cursor ph :: r.1, r.2)

/-- The outer loop of `MockLLMProcessor.process` over the token list,
threading the time cursor. -/
def processAux (cfg : MockLLM) : ℤ → List SheetTextToken → List PhonemeEvent
  | _, [] => []
  | cursor, t :: rest =>
    let r := emitPhonemes cfg t cursor (word_to_phonemes t.text)
    r.1 ++ processAux cfg r.2 rest

/-- `MockLLMProcessor.process` (`llm_processor.py` lines 112-142). -/
def MockLLM.process (cfg : MockLLM) (tokens : List SheetTextToken) :
    List PhonemeEvent :=
  processAux cfg 0 tokens

/-! ### Input queue (`input_buffer.py`) -/

/-- `InputBuffer.push` on a `deque(maxlen=capacity)`: append the new item,
then drop items from the front until at most `capacity` remain. -/
def inputPush (capacity : ℕ) (buf : List Key) (k : Key) : List Key :=
  let b := buf ++ [k]
  if capacity < b.length then b.drop (b.length - capacity) else b

/-- `InputBuffer.consume(n)`: remove and return up to `n` oldest items. -/
def inputConsume (n : ℕ) (buf : List Key) : List Key × List Key :=
  (buf.take n, buf.drop n)

/-- `InputBuffer.level()`: fill ratio, `0.0` when the capacity is `0`. -/
def inputLevel (capacity : ℕ) (buf : List Key) : ℚ :=
  if capacity = 0 then 0 else (buf.length : ℚ) / capacity

/-! ### Rate-tracked output queue (`output_buffer.py`) -/

/-- `OutputBuffer.push`: enqueue each event only while the queue is below
capacity; events that do not fit are dropped silently. -/
def outputPush (capacity : ℕ) (buf : List PhonemeEvent)
    (events : List PhonemeEvent) : List PhonemeEvent :=
  events.foldl (fun b ev => if b.length < capacity then b ++ [ev] else b) buf

/-- `OutputBuffer.pop`: return the oldest event (or `none`) and the
remaining queue. -/
def outputPop (buf : List PhonemeEvent) : Option PhonemeEvent × List PhonemeEvent :=
  (buf.head?, buf.tail)

/-- The level computation of `OutputBuffer.state`
(`len(buffer)/capacity if capacity > 0 else 0.0`). -/
def bufferLevel (size capacity : ℕ) : ℚ :=
  if 0 < capacity then (size : ℚ) / capacity else 0

/-- The zone classification of `OutputBuffer.state`
(`output_buffer.py` lines 56-65). -/
def bufferStatus (size capacity : ℕ) : String :=
  let level := bufferLevel size capacity
  if level < 1/5 then "underflow"
  else if 4/5 < level then "overflow"
  else "optimal"

/-- `OutputBuffer._calc_rate` (`output_buffer.py` lines 86-97): prune leading
timestamps older than the 2.0-second window, then divide the number of
survivors by the span back to the oldest survivor (or return the bare count
when that span is not positive, and `0` when nothing survives). -/
def calcRate (timestamps : List ℚ) (now : ℚ) : ℚ :=
  let cutoff := now - 2
  let surv := timestamps.dropWhile (fun t => decide (t < cutoff))
  match surv with
  | [] => 0
  | t0 :: rest =>
    if now - t0 ≤ 0 then ((t0 :: rest).length : ℚ)
    else ((t0 :: rest).length : ℚ) / (now - t0)

/-! ### Pipeline orchestrator (`pipeline.py`)

The recording hooks and the opaque audio synthesis call of `tick` are not
modelled: they do not feed back into any queue, token or event. -/

/-- Capacities and the expander configuration (`MavisConfig` fragment). -/
structure PipelineConfig where
  input_capacity : ℕ := 256
  output_capacity : ℕ := 128
  llm : MockLLM := {}
  deriving Repr, DecidableEq

/-- The mutable state of `MavisPipeline`. -/
structure PipelineState where
  input : List Key := []
  output : List PhonemeEvent := []
  lastTokens : List SheetTextToken := []
  lastPhoneme : Option PhonemeEvent := none
  deriving Repr, DecidableEq

/-- `self._chunk_size` (`pipeline.py` line 41). -/
def chunkSize : ℕ := 8

/-- The dictionary returned by `MavisPipeline.state` (its time-independent
fields; the two windowed rates need the wall clock and are not modelled). -/
structure PipelineView where
  input_buffer_level : ℚ
  input_buffer_size : ℕ
  output_buffer_level : ℚ
  output_buffer_status : String
  output_buffer_size : ℕ
  last_tokens : List (List Char)
  last_phoneme : Option String
  deriving Repr, DecidableEq

/-- `MavisPipeline.state` (`pipeline.py` lines 137-150). -/
def stateView (cfg : PipelineConfig) (st : PipelineState) : PipelineView :=
  { input_buffer_level := inputLevel cfg.input_capacity st.input
    input_buffer_size := st.input.length
    output_buffer_level := bufferLevel st.output.length cfg.output_capacity
    output_buffer_status := bufferStatus st.output.length cfg.output_capacity
    output_buffer_size := st.output.length
    last_tokens := st.lastTokens.map (·.text)
    last_phoneme := st.lastPhoneme.map (·.phoneme) }

/-- `MavisPipeline.feed` (`pipeline.py` lines 73-79): push one keystroke
into the input queue; nothing else changes. -/
def feed (cfg : PipelineConfig) (st : PipelineState) (c : Char)
    (sh ct al : Bool) : PipelineState :=
  let k : Key := { char := c, shift := sh, ctrl := ct, alt := al }
  { st with input := inputPush cfg.input_capacity st.input k }

/-- `MavisPipeline.tick` (`pipeline.py` lines 87-135): consume a chunk,
parse, expand (only when tokens were produced), push, pop one event, and
return the new state together with the reported snapshot. -/
def tick (cfg : PipelineConfig) (st : PipelineState) :
    PipelineState × PipelineView :=
  let consumed := inputConsume chunkSize st.input
  let chars := consumed.1
  let tokens := if chars.isEmpty then [] else parse chars
  let lastTokens := if tokens.isEmpty then st.lastTokens else tokens
  let events := if tokens.isEmpty then [] else cfg.llm.process tokens
  let output1 := if events.isEmpty then st.output
                 else outputPush cfg.output_capacity st.output events
  let popped := outputPop output1
  let st1 : PipelineState :=
    { input := consumed.2, output := popped.2, lastTokens := lastTokens,
      lastPhoneme := popped.1 }
  (st1, stateView cfg st1)

/-! ### Spec-side rendering of the shout promotion (claim C1)

The specification describes `_promote_shout` by its effect on maximal runs:
a `loud` token is promoted to `shout` exactly when it belongs to a maximal
run of at least two consecutive `loud` tokens, i.e. exactly when one of its
immediate neighbours is also `loud`; every other token is left untouched.
`loudRunSpec` is that description written directly as a neighbour map. -/

/-- Whether a list starts with a `loud` token. -/
def headLoud : List SheetTextToken → Bool
  | [] => false
  | u :: _ => isLoud u

/-- Promote each token whose left or right neighbour is also `loud`;
`leftLoud` records whether the previous token was `loud`. -/
def loudRunSpecAux : Bool → List SheetTextToken → List SheetTextToken
  | _, [] => []
  | leftLoud, t :: rest =>
    (if isLoud t && (leftLoud || headLoud rest) then setShout t else t) ::
      loudRunSpecAux (isLoud t) rest

/-- The specification's description of the post-pass. -/
def loudRunSpec (ts : List SheetTextToken) : List SheetTextToken :=
  loudRunSpecAux false ts

lemma headLoud_nil : headLoud [] = false := rfl

lemma headLoud_cons (t : SheetTextToken) (rest : List SheetTextToken) :
    headLoud (t :: rest) = isLoud t := rfl

lemma loudRunSpecAux_nil (b : Bool) : loudRunSpecAux b [] = [] := rfl

lemma loudRunSpecAux_cons (b : Bool) (t : SheetTextToken)
    (rest : List SheetTextToken) :
    loudRunSpecAux b (t :: rest) =
      (if isLoud t && (b || headLoud rest) then setShout t else t) ::
        loudRunSpecAux (isLoud t) rest := rfl

lemma promoteAux_eq_spec :
    ∀ (rest acc : List SheetTextToken),
    (∀ t ∈ acc, isLoud t = true) →
    promoteAux acc rest =
      (if 2 ≤ acc.length + (if headLoud rest then 1 else 0)
       then acc.map setShout else acc) ++ loudRunSpecAux (!acc.isEmpty) rest := by
  intro rest
  induction rest with
  | nil =>
    intro acc hacc
    simp [promoteAux, promoteRun, headLoud_nil, loudRunSpecAux_nil]
  | cons t r ih =>
    intro acc hacc
    cases ht : isLoud t with
    | false =>
      have h0 : ∀ u ∈ ([] : List SheetTextToken), isLoud u = true := by simp
      rw [promoteAux, if_neg (by simp [ht]), ih [] h0]
      rw [loudRunSpecAux_cons, headLoud_cons]
      cases hl : headLoud r <;>
        simp [hl, ht, promoteRun]
    | true =>
      have hacc1 : ∀ u ∈ acc ++ [t], isLoud u = true := by
        intro u hu
        rcases List.mem_append.mp hu with h | h
        · exact hacc u h
        · simp only [List.mem_singleton] at h
          simpa [h] using ht
      rw [promoteAux, if_pos ht, ih (acc ++ [t]) hacc1]
      rw [loudRunSpecAux_cons, headLoud_cons, ht]
      rcases acc with _ | ⟨a, as⟩
      · cases hl : headLoud r <;> simp [hl, ht]
      · cases hl : headLoud r <;>
        · rw [if_pos (by simp [hl]; try omega), if_pos (by simp)]
          simp [hl, ht]

/-- Claim C1: `_promote_shout` promotes every maximal run of two or more
consecutive `loud` tokens entirely to `shout`, leaves a single isolated
`loud` token `loud`, and changes no other token: it coincides with the
neighbour map `loudRunSpec` (a token is rewritten to `shout` exactly when
it is `loud` and has a `loud` immediate neighbour, which characterises
membership in a maximal run of length at least 2); and `parse` applies
exactly this post-pass to the token list its main loop builds. -/
theorem promote_shout_runs :
    (∀ ts : List SheetTextToken, promoteShout ts = loudRunSpec ts) ∧
    (∀ chars : List Key, parse chars = loudRunSpec (rawTokens chars)) := by
  have h1 : ∀ ts : List SheetTextToken, promoteShout ts = loudRunSpec ts := by
    intro ts
    have h := promoteAux_eq_spec ts [] (by simp)
    cases hl : headLoud ts <;>
      simpa [promoteShout, loudRunSpec, hl] using h
  refine ⟨h1, ?_⟩
  intro chars
  cases hc : chars.isEmpty with
  | true =>
    have : chars = [] := List.isEmpty_iff.mp hc
    subst this
    simp [parse, rawTokens, splitGroups, splitGroupsAux, loudRunSpec,
      loudRunSpecAux]
  | false =>
    simp [parse, hc, h1]

/-! ### Claim C2: zone thresholds of `OutputBuffer.state` -/

/-- Claim C2: for every positive capacity the zone reported by
`OutputBuffer.state` is a pure function of `level = size / capacity`:
`underflow` exactly when the level is below `1/5`, `overflow` exactly when
it is above `4/5`, and `optimal` otherwise — so levels of exactly `1/5`
(0.2) and exactly `4/5` (0.8) are classified `optimal`. -/
theorem bufferStatus_zone (size capacity : ℕ) (h : 0 < capacity) :
    (bufferStatus size capacity = "underflow" ↔
      (size : ℚ) / capacity < 1/5) ∧
    (bufferStatus size capacity = "overflow" ↔
      (4 : ℚ)/5 < (size : ℚ) / capacity) ∧
    (bufferStatus size capacity = "optimal" ↔
      (1 : ℚ)/5 ≤ (size : ℚ) / capacity ∧ (size : ℚ) / capacity ≤ 4/5) := by
  have hl : bufferLevel size capacity = (size : ℚ) / capacity := by
    simp [bufferLevel, h]
  unfold bufferStatus
  rw [hl]
  by_cases h1 : (size : ℚ) / capacity < 1/5
  · rw [if_pos h1]
    refine ⟨⟨fun _ => h1, fun _ => rfl⟩, ⟨?_, ?_⟩, ⟨?_, ?_⟩⟩
    · intro hc; exact absurd hc (by decide)
    · intro hc; exfalso; linarith
    · intro hc; exact absurd hc (by decide)
    · rintro ⟨hge, _⟩; exfalso; linarith
  · rw [if_neg h1]
    by_cases h2 : (4 : ℚ)/5 < (size : ℚ) / capacity
    · rw [if_pos h2]
      refine ⟨⟨?_, ?_⟩, ⟨fun _ => h2, fun _ => rfl⟩, ⟨?_, ?_⟩⟩
      · intro hc; exact absurd hc (by decide)
      · intro hc; exact absurd hc h1
      · intro hc; exact absurd hc (by decide)
      · rintro ⟨_, hle⟩; exfalso; linarith
    · rw [if_neg h2]
      refine ⟨⟨?_, ?_⟩, ⟨?_, ?_⟩, ⟨fun _ => ⟨le_of_not_lt h1, le_of_not_lt h2⟩,
        fun _ => rfl⟩⟩
      · intro hc; exact absurd hc (by decide)
      · intro hc; exact absurd hc h1
      · intro hc; exact absurd hc (by decide)
      · intro hc; exact absurd hc h2

/-- Witness for C2 at `size = 1`, `capacity = 5` (level exactly `0.2`,
classified `optimal`). -/
theorem bufferStatus_zone_witness :
    (bufferStatus 1 5 = "underflow" ↔ ((1 : ℕ) : ℚ) / ((5 : ℕ) : ℚ) < 1/5) ∧
    (bufferStatus 1 5 = "overflow" ↔ (4 : ℚ)/5 < ((1 : ℕ) : ℚ) / ((5 : ℕ) : ℚ)) ∧
    (bufferStatus 1 5 = "optimal" ↔
      (1 : ℚ)/5 ≤ ((1 : ℕ) : ℚ) / ((5 : ℕ) : ℚ) ∧
      ((1 : ℕ) : ℚ) / ((5 : ℕ) : ℚ) ≤ 4/5) :=
  bufferStatus_zone 1 5 (by decide)

/-! ### Claim C3: the windowed rate of `OutputBuffer._calc_rate` -/

/-- Counterexample to claim C3: with `now = 2` and the single timestamp
`3/2`, exactly one timestamp survives the 2.0-second window, yet the
reported rate is `1 / (2 - 3/2) = 2`, not the count `1` that the claim
predicts for a single survivor. -/
theorem calcRate_single_survivor_counterexample :
    (([(3 : ℚ)/2]).dropWhile (fun t => decide (t < (2 : ℚ) - 2))).length = 1 ∧
    calcRate [(3 : ℚ)/2] 2 = 2 ∧ ¬ calcRate [(3 : ℚ)/2] 2 = 1 := by
  refine ⟨?_, ?_, ?_⟩ <;> norm_num [calcRate, List.dropWhile]

/-- Claim C3 as amended: after pruning the leading timestamps that fall
before the 2.0-second cutoff, `_calc_rate` returns `0` when nothing
survives; otherwise it divides the survivor count by the span from the
oldest survivor to `now` whenever that span is positive, and returns the
bare count only when the span is zero or negative (oldest survivor at or
after `now`) — not whenever a single timestamp survives. -/
theorem calcRate_spec (timestamps : List ℚ) (now : ℚ) :
    (timestamps.dropWhile (fun t => decide (t < now - 2)) = [] →
      calcRate timestamps now = 0) ∧
    (∀ (t0 : ℚ) (rest : List ℚ),
      timestamps.dropWhile (fun t => decide (t < now - 2)) = t0 :: rest →
      (now - t0 ≤ 0 → calcRate timestamps now = ((t0 :: rest).length : ℚ)) ∧
      (0 < now - t0 →
        calcRate timestamps now = ((t0 :: rest).length : ℚ) / (now - t0))) := by
  constructor
  · intro hs
    simp [calcRate, hs]
  · intro t0 rest hs
    constructor
    · intro h0
      simp [calcRate, hs, h0]
    · intro h0
      have hn : ¬ now - t0 ≤ 0 := not_le.mpr h0
      simp [calcRate, hs, hn]

/-- Witness for the amended C3: one survivor at time `0`, snapshot at
`now = 1`, rate `1 / (1 - 0) = 1`. -/
theorem calcRate_spec_witness : calcRate [(0 : ℚ)] 1 = 1 := by
  have h := (calcRate_spec [(0 : ℚ)] 1).2 0 [] (by norm_num [List.dropWhile])
  simpa using h.2 (by norm_num)

/-! ### Claim C4: determinism and non-overlap of the phoneme expander -/

/-- The non-overlap property of an event list: each event starts exactly
where the previous one ends. -/
def chained : List PhonemeEvent → Bool
  | a :: b :: rest =>
    (b.start_ms == a.start_ms + a.duration_ms) && chained (b :: rest)
  | _ => true

lemma chained_nil : chained [] = true := rfl

lemma chained_single (a : PhonemeEvent) : chained [a] = true := rfl

lemma chained_cons_cons (a b : PhonemeEvent) (rest : List PhonemeEvent) :
    chained (a :: b :: rest) =
      ((b.start_ms == a.start_ms + a.duration_ms) && chained (b :: rest)) := rfl

lemma chained_tail (a : PhonemeEvent) (l : List PhonemeEvent)
    (h : chained (a :: l) = true) : chained l = true := by
  cases l with
  | nil => rfl
  | cons b r =>
    rw [chained_cons_cons] at h
    simp only [Bool.and_eq_true] at h
    exact h.2

lemma chained_append (xs ys : List PhonemeEvent) :
    chained xs = true → chained ys = true →
    (∀ a b, xs.getLast? = some a → ys.head? = some b →
      b.start_ms = a.start_ms + a.duration_ms) →
    chained (xs ++ ys) = true := by
  induction xs with
  | nil => intro _ hy _; simpa using hy
  | cons a xs ih =>
    intro hx hy hlink
    cases xs with
    | nil =>
      cases ys with
      | nil => simpa using chained_single a
      | cons b ys =>
        have hb : b.start_ms = a.start_ms + a.duration_ms :=
          hlink a b rfl rfl
        simp [chained_cons_cons, hb, hy]
    | cons a2 xs' =>
      have hx' := hx
      rw [chained_cons_cons] at hx'
      simp only [Bool.and_eq_true, beq_iff_eq] at hx'
      have hlink' : ∀ u v, (a2 :: xs').getLast? = some u → ys.head? = some v →
          v.start_ms = u.start_ms + u.duration_ms := by
        intro u v hu hv
        exact hlink u v (by rw [List.getLast?_cons_cons]; exact hu) hv
      have hrec := ih hx'.2 hy hlink'
      simpa [chained_cons_cons, hx'.1] using hrec

lemma chained_get : ∀ (l : List PhonemeEvent), chained l = true →
    ∀ (i : ℕ) (h : i + 1 < l.length),
    (l.get ⟨i + 1, h⟩).start_ms =
      (l.get ⟨i, Nat.lt_of_succ_lt h⟩).start_ms +
      (l.get ⟨i, Nat.lt_of_succ_lt h⟩).duration_ms := by
  intro l
  induction l with
  | nil => intro _ i h; simp at h
  | cons a l ih =>
    intro hc i h
    cases l with
    | nil => simp at h
    | cons b r =>
      cases i with
      | zero =>
        have hc' := hc
        rw [chained_cons_cons] at hc'
        simp only [Bool.and_eq_true, beq_iff_eq] at hc'
        simpa using hc'.1
      | succ j =>
        have hc' : chained (b :: r) = true := chained_tail a _ hc
        have hlt : j + 1 < (b :: r).length := by simpa using h
        simpa using ih hc' j hlt

lemma emitPhonemes_fst_cons (cfg : MockLLM) (t : SheetTextToken)
    (cursor : ℤ) (ph : String) (rest : List String) :
    (emitPhonemes cfg t cursor (ph :: rest)).1 =
      mkEvent cfg t cursor ph ::
        (emitPhonemes cfg t (cursor + tokenDuration cfg t) rest).1 := rfl

lemma emitPhonemes_snd_cons (cfg : MockLLM) (t : SheetTextToken)
    (cursor : ℤ) (ph : String) (rest : List String) :
    (emitPhonemes cfg t cursor (ph :: rest)).2 =
      (emitPhonemes cfg t (cursor + tokenDuration cfg t) rest).2 := rfl

lemma emitPhonemes_nil (cfg : MockLLM) (t : SheetTextToken) (cursor : ℤ) :
    emitPhonemes cfg t cursor [] = ([], cursor) := rfl

lemma emitPhonemes_head (cfg : MockLLM) (t : SheetTextToken)
    (phs : List String) (cursor : ℤ) (e : PhonemeEvent)
    (h : (emitPhonemes cfg t cursor phs).1.head? = some e) :
    e.start_ms = cursor := by
  cases phs with
  | nil => simp [emitPhonemes_nil] at h
  | cons ph rest =>
    rw [emitPhonemes_fst_cons] at h
    simp only [List.head?_cons, Option.some_inj] at h
    rw [← h]
    rfl

lemma emitPhonemes_getLast (cfg : MockLLM) (t : SheetTextToken) :
    ∀ (phs : List String) (cursor : ℤ) (e : PhonemeEvent),
    (emitPhonemes cfg t cursor phs).1.getLast? = some e →
    e.start_ms + e.duration_ms = (emitPhonemes cfg t cursor phs).2 := by
  intro phs
  induction phs with
  | nil => intro cursor e h; simp [emitPhonemes_nil] at h
  | cons ph rest ih =>
    intro cursor e h
    cases rest with
    | nil =>
      rw [emitPhonemes_fst_cons, emitPhonemes_nil] at h
      simp only [List.getLast?_singleton, Option.some_inj] at h
      rw [← h, emitPhonemes_snd_cons, emitPhonemes_nil]
      rfl
    | cons ph2 rest2 =>
      rw [emitPhonemes_fst_cons, emitPhonemes_fst_cons,
        List.getLast?_cons_cons, ← emitPhonemes_fst_cons] at h
      rw [emitPhonemes_snd_cons]
      exact ih (cursor + tokenDuration cfg t) e h

lemma emitPhonemes_chained (cfg : MockLLM) (t : SheetTextToken) :
    ∀ (phs : List String) (cursor : ℤ),
    chained (emitPhonemes cfg t cursor phs).1 = true := by
  intro phs
  induction phs with
  | nil => intro cursor; rfl
  | cons ph rest ih =>
    intro cursor
    cases rest with
    | nil => rfl
    | cons ph2 rest2 =>
      rw [emitPhonemes_fst_cons, emitPhonemes_fst_cons, chained_cons_cons,
        ← emitPhonemes_fst_cons]
      have hs : (mkEvent cfg t (cursor + tokenDuration cfg t) ph2).start_ms =
          (mkEvent cfg t cursor ph).start_ms +
            (mkEvent cfg t cursor ph).duration_ms := rfl
      simp [hs, ih (cursor + tokenDuration cfg t)]

lemma processAux_cons (cfg : MockLLM) (cursor : ℤ) (t : SheetTextToken)
    (rest : List SheetTextToken) :
    processAux cfg cursor (t :: rest) =
      (emitPhonemes cfg t cursor (word_to_phonemes t.text)).1 ++
        processAux cfg (emitPhonemes cfg t cursor (word_to_phonemes t.text)).2
          rest := rfl

lemma processAux_head (cfg : MockLLM) :
    ∀ (toks : List SheetTextToken) (cursor : ℤ) (e : PhonemeEvent),
    (processAux cfg cursor toks).head? = some e → e.start_ms = cursor := by
  intro toks
  induction toks with
  | nil => intro cursor e h; simp [processAux] at h
  | cons t rest ih =>
    intro cursor e h
    rw [processAux_cons] at h
    cases hph : word_to_phonemes t.text with
    | nil =>
      rw [hph, emitPhonemes_nil] at h
      simp only [List.nil_append] at h
      exact ih cursor e h
    | cons ph phs =>
      rw [hph, emitPhonemes_fst_cons, List.cons_append, List.head?_cons,
        Option.some_inj] at h
      rw [← h]
      rfl

lemma processAux_chained (cfg : MockLLM) :
    ∀ (toks : List SheetTextToken) (cursor : ℤ),
    chained (processAux cfg cursor toks) = true := by
  intro toks
  induction toks with
  | nil => intro cursor; rfl
  | cons t rest ih =>
    intro cursor
    rw [processAux_cons]
    cases hph : word_to_phonemes t.text with
    | nil =>
      rw [emitPhonemes_nil]
      simpa using ih cursor
    | cons ph phs =>
      refine chained_append _ _ (emitPhonemes_chained cfg t _ cursor)
        (ih _) ?_
      intro a b ha hb
      have h1 := emitPhonemes_getLast cfg t _ cursor a ha
      have h2 := processAux_head cfg rest _ b hb
      rw [h2, ← h1]

lemma emitPhonemes_mem_duration (cfg : MockLLM) (t : SheetTextToken) :
    ∀ (phs : List String) (cursor : ℤ) (e : PhonemeEvent),
    e ∈ (emitPhonemes cfg t cursor phs).1 →
    e.duration_ms = tokenDuration cfg t := by
  intro phs
  induction phs with
  | nil => intro cursor e h; simp [emitPhonemes_nil] at h
  | cons ph rest ih =>
    intro cursor e h
    rw [emitPhonemes_fst_cons] at h
    rcases List.mem_cons.mp h with h | h
    · rw [h]; rfl
    · exact ih _ e h

lemma processAux_mem_duration (cfg : MockLLM) :
    ∀ (toks : List SheetTextToken) (cursor : ℤ) (e : PhonemeEvent),
    e ∈ processAux cfg cursor toks →
    ∃ t ∈ toks, e.duration_ms = tokenDuration cfg t := by
  intro toks
  induction toks with
  | nil => intro cursor e h; simp [processAux] at h
  | cons t rest ih =>
    intro cursor e h
    rw [processAux_cons] at h
    rcases List.mem_append.mp h with h | h
    · exact ⟨t, List.mem_cons_self t rest, emitPhonemes_mem_duration cfg t _ _ e h⟩
    · rcases ih _ e h with ⟨u, hu, he⟩
      exact ⟨u, List.mem_cons_of_mem t hu, he⟩

lemma tokenDuration_nonneg (cfg : MockLLM) (t : SheetTextToken)
    (hb : 0 ≤ cfg.base_duration_ms) (hd : 0 ≤ t.duration_modifier) :
    0 ≤ tokenDuration cfg t := by
  unfold tokenDuration pyInt
  have hq : (0 : ℚ) ≤ (cfg.base_duration_ms : ℚ) * t.duration_modifier :=
    mul_nonneg (by exact_mod_cast hb) hd
  rw [if_neg (not_lt.mpr hq)]
  exact Int.floor_nonneg.mpr hq

lemma tokenRest_dm (g : List Key) (text : List Char) (sus : Bool) (dm : ℚ) :
    (tokenRest g text sus dm).duration_modifier = dm := by
  cases hsw : softWrapped (harmonyText text) <;> simp [tokenRest, hsw]

lemma groupToken_dm (g : List Key) :
    (groupToken g).duration_modifier = 1 ∨
      (groupToken g).duration_modifier = 2 := by
  by_cases h1 : endsWithEllipsis (rawText g)
  · by_cases h2 : (sustainStrip (rawText g)).isEmpty
    · right; simp [groupToken, h1, h2]
    · right; simp [groupToken, h1, h2, tokenRest_dm]
  · left; simp [groupToken, h1, tokenRest_dm]

lemma setShout_dm (t : SheetTextToken) :
    (setShout t).duration_modifier = t.duration_modifier := rfl

lemma promoteAux_mem :
    ∀ (rest acc : List SheetTextToken) (x : SheetTextToken),
    x ∈ promoteAux acc rest →
    ∃ u, (u ∈ acc ∨ u ∈ rest) ∧ (x = u ∨ x = setShout u) := by
  intro rest
  induction rest with
  | nil =>
    intro acc x h
    rw [promoteAux] at h
    unfold promoteRun at h
    split at h
    · rcases List.mem_map.mp h with ⟨u, hu, hx⟩
      exact ⟨u, Or.inl hu, Or.inr hx.symm⟩
    · exact ⟨x, Or.inl h, Or.inl rfl⟩
  | cons t r ih =>
    intro acc x h
    rw [promoteAux] at h
    split at h
    · rcases ih (acc ++ [t]) x h with ⟨u, hu, hx⟩
      rcases hu with hu | hu
      · rcases List.mem_append.mp hu with hu | hu
        · exact ⟨u, Or.inl hu, hx⟩
        · simp only [List.mem_singleton] at hu
          exact ⟨u, Or.inr (by rw [hu]; exact List.mem_cons_self t r), hx⟩
      · exact ⟨u, Or.inr (List.mem_cons_of_mem t hu), hx⟩
    · rcases List.mem_append.mp h with h | h
      · unfold promoteRun at h
        split at h
        · rcases List.mem_map.mp h with ⟨u, hu, hx⟩
          exact ⟨u, Or.inl hu, Or.inr hx.symm⟩
        · exact ⟨x, Or.inl h, Or.inl rfl⟩
      · rcases List.mem_cons.mp h with h | h
        · exact ⟨t, Or.inr (List.mem_cons_self t r), Or.inl h⟩
        · rcases ih [] x h with ⟨u, hu, hx⟩
          rcases hu with hu | hu
          · simp at hu
          · exact ⟨u, Or.inr (List.mem_cons_of_mem t hu), hx⟩

lemma parse_dm_nonneg :
    ∀ (chars : List Key), ∀ t ∈ parse chars, 0 ≤ t.duration_modifier := by
  intro chars t ht
  by_cases hc : chars.isEmpty
  · simp [parse, hc] at ht
  · rw [parse, if_neg hc] at ht
    rcases promoteAux_mem (rawTokens chars) [] t ht with ⟨u, hu, hx⟩
    have hu' : u ∈ rawTokens chars := by
      rcases hu with hu | hu
      · simp at hu
      · exact hu
    rcases List.mem_map.mp hu' with ⟨g, _, hg⟩
    have hdm : u.duration_modifier = 1 ∨ u.duration_modifier = 2 := by
      rw [← hg]; exact groupToken_dm g
    have hxdm : t.duration_modifier = u.duration_modifier := by
      rcases hx with hx | hx
      · rw [hx]
      · rw [hx, setShout_dm]
    rw [hxdm]
    rcases hdm with h | h <;> rw [h] <;> norm_num

/-- Claim C4: `MockLLMProcessor.process` is deterministic (it is a pure
function of the token list) and emits non-overlapping events: each event
starts exactly where the previous one ends
(`events[i+1].start_ms = events[i].start_ms + events[i].duration_ms`).
Consequently start offsets are monotonically non-decreasing whenever every
duration is nonnegative — which is the case for every token the tokenizer
produces (duration modifiers 1 or 2) with a nonnegative base duration
(the constructor default is 100). -/
theorem mock_process_deterministic_nonoverlap (cfg : MockLLM) :
    (∀ toks1 toks2 : List SheetTextToken, toks1 = toks2 →
      cfg.process toks1 = cfg.process toks2) ∧
    (∀ (toks : List SheetTextToken) (i : ℕ)
      (h : i + 1 < (cfg.process toks).length),
      ((cfg.process toks).get ⟨i + 1, h⟩).start_ms =
        ((cfg.process toks).get ⟨i, Nat.lt_of_succ_lt h⟩).start_ms +
        ((cfg.process toks).get ⟨i, Nat.lt_of_succ_lt h⟩).duration_ms) ∧
    (∀ (toks : List SheetTextToken),
      (∀ t ∈ toks, 0 ≤ t.duration_modifier) → 0 ≤ cfg.base_duration_ms →
      ∀ (i : ℕ) (h : i + 1 < (cfg.process toks).length),
      ((cfg.process toks).get ⟨i, Nat.lt_of_succ_lt h⟩).start_ms ≤
        ((cfg.process toks).get ⟨i + 1, h⟩).start_ms) ∧
    (∀ chars : List Key, ∀ t ∈ parse chars, 0 ≤ t.duration_modifier) := by
  refine ⟨fun toks1 toks2 he => by rw [he], ?_, ?_, parse_dm_nonneg⟩
  · intro toks i h
    exact chained_get _ (processAux_chained cfg toks 0) i h
  · intro toks hnn hb i h
    have heq := chained_get (cfg.process toks)
      (processAux_chained cfg toks 0) i h
    have hmem : (cfg.process toks).get ⟨i, Nat.lt_of_succ_lt h⟩ ∈
        cfg.process toks := List.get_mem _ _ _
    rcases processAux_mem_duration cfg toks 0 _ hmem with ⟨u, hu, hd⟩
    have hdn : 0 ≤ ((cfg.process toks).get
        ⟨i, Nat.lt_of_succ_lt h⟩).duration_ms := by
      rw [hd]
      exact tokenDuration_nonneg cfg u hb (hnn u hu)
    rw [heq]
    omega

/-- Witness for C4 at the token `"an"` (two phonemes, base duration 100):
the second event starts at `0 + 100`. -/
theorem mock_process_nonoverlap_witness :
    ((({} : MockLLM).process [{ text := "an".toList }]).get
        ⟨1, by decide⟩).start_ms =
      ((({} : MockLLM).process [{ text := "an".toList }]).get
        ⟨0, by decide⟩).start_ms +
      ((({} : MockLLM).process [{ text := "an".toList }]).get
        ⟨0, by decide⟩).duration_ms :=
  (mock_process_deterministic_nonoverlap {}).2.1 [{ text := "an".toList }] 0
    (by decide)

/-! ### Claim C5: queue saturation -/

lemma inputPush_length_le (cap : ℕ) (buf : List Key) (k : Key)
    (h : buf.length ≤ cap) : (inputPush cap buf k).length ≤ cap := by
  by_cases hlt : cap < (buf ++ [k]).length
  · simp only [inputPush]
    rw [if_pos hlt]
    simp only [List.length_drop]
    omega
  · simp only [inputPush]
    rw [if_neg hlt]
    omega

lemma foldl_inv {α β : Type} (f : β → α → β) (P : β → Prop)
    (hstep : ∀ b a, P b → P (f b a)) :
    ∀ (l : List α) (b : β), P b → P (l.foldl f b) := by
  intro l
  induction l with
  | nil => intro b hb; simpa using hb
  | cons a r ih =>
    intro b hb
    simpa using ih (f b a) (hstep b a hb)

lemma outputPush_eq_take (cap : ℕ) :
    ∀ (evs buf : List PhonemeEvent), buf.length ≤ cap →
    outputPush cap buf evs = buf ++ evs.take (cap - buf.length) := by
  intro evs
  induction evs with
  | nil => intro buf h; simp [outputPush]
  | cons e r ih =>
    intro buf h
    by_cases hlt : buf.length < cap
    · have hstep : outputPush cap buf (e :: r) = outputPush cap (buf ++ [e]) r := by
        simp [outputPush, hlt]
      rw [hstep, ih (buf ++ [e]) (by simpa using hlt)]
      have hc : cap - buf.length = (cap - (buf.length + 1)) + 1 := by omega
      simp [hc, List.take_succ_cons]
    · have heq : buf.length = cap := le_antisymm h (Nat.le_of_not_lt hlt)
      have hstep : outputPush cap buf (e :: r) = outputPush cap buf r := by
        simp [outputPush, hlt]
      rw [hstep, ih buf h]
      simp [heq]

lemma outputPush_length_le (cap : ℕ) (buf evs : List PhonemeEvent)
    (h : buf.length ≤ cap) : (outputPush cap buf evs).length ≤ cap := by
  rw [outputPush_eq_take cap evs buf h]
  simp only [List.length_append, List.length_take]
  omega

/-- Claim C5: neither queue ever reports a size above its capacity, and
pushes are total (no error path): starting empty, any sequence of input
pushes keeps the input queue at or below capacity, and any sequence of
output pushes keeps the output queue at or below capacity; an input push
at full (positive) capacity evicts the oldest entry; an output push
enqueues exactly the prefix of the pushed events that fits and silently
discards the rest. -/
theorem queue_capacity_saturation :
    (∀ (cap : ℕ) (ks : List Key),
      (ks.foldl (inputPush cap) []).length ≤ cap) ∧
    (∀ (cap : ℕ) (pushes : List (List PhonemeEvent)),
      (pushes.foldl (outputPush cap) []).length ≤ cap) ∧
    (∀ (cap : ℕ) (buf : List Key) (k : Key), buf.length = cap → 0 < cap →
      inputPush cap buf k = buf.tail ++ [k]) ∧
    (∀ (cap : ℕ) (buf evs : List PhonemeEvent), buf.length ≤ cap →
      outputPush cap buf evs = buf ++ evs.take (cap - buf.length)) := by
  refine ⟨?_, ?_, ?_, fun cap buf evs h => outputPush_eq_take cap evs buf h⟩
  · intro cap ks
    exact foldl_inv (inputPush cap) (fun b => b.length ≤ cap)
      (fun b a hb => inputPush_length_le cap b a hb) ks [] (by simp)
  · intro cap pushes
    exact foldl_inv (outputPush cap) (fun b => b.length ≤ cap)
      (fun b a hb => outputPush_length_le cap b a hb) pushes [] (by simp)
  · intro cap buf k hlen hpos
    have hcond : cap < (buf ++ [k]).length := by simp [hlen]
    have hd : (buf ++ [k]).length - cap = 1 := by simp [hlen]
    simp only [inputPush]
    rw [if_pos hcond, hd, List.drop_append_of_le_length (by omega),
      List.drop_one]

/-- Witness for C5: a full one-slot input queue evicts its oldest entry,
and a one-slot output queue accepts only the first of two pushed events. -/
theorem queue_capacity_saturation_witness :
    (inputPush 1 [{ char := 'a' }] { char := 'b' } =
      ([{ char := 'a' }] : List Key).tail ++ [{ char := 'b' }]) ∧
    (outputPush 1 [] [{ phoneme := "x" }, { phoneme := "y" }] =
      [] ++ ([{ phoneme := "x" }, { phoneme := "y" }] : List PhonemeEvent).take
        (1 - ([] : List PhonemeEvent).length)) :=
  ⟨queue_capacity_saturation.2.2.1 1 [{ char := 'a' }] { char := 'b' }
      (by decide) (by decide),
    queue_capacity_saturation.2.2.2 1 []
      [{ phoneme := "x" }, { phoneme := "y" }] (by decide)⟩

/-! ### Claim C6: bracket stripping precedes soft detection -/

/-- Claim C6: per group (after sustain stripping) harmony bracket-stripping
is applied before underscore soft detection, a bracket-stripped group can
then match soft (so `"[_word_]"` yields `harmony = true`,
`emphasis = "soft"`, `text = "word"`), and when the post-harmony text
matches the soft pattern the loud/shout checks are skipped: the emphasis
is `"soft"` and the token text is the soft-stripped post-harmony text.
Bracket-wrapping always sets the harmony flag. -/
theorem soft_priority_after_brackets :
    (parse (text_to_chars "[_word_]".toList) =
      [{ text := "word".toList, emphasis := "soft", sustain := false,
         harmony := true, duration_modifier := 1 }]) ∧
    (∀ (g : List Key) (text : List Char) (sus : Bool) (dm : ℚ),
      softWrapped (harmonyText text) = true →
      (tokenRest g text sus dm).emphasis = "soft" ∧
      (tokenRest g text sus dm).text = stripOuter (harmonyText text)) ∧
    (∀ (g : List Key) (text : List Char) (sus : Bool) (dm : ℚ),
      bracketWrapped text = true →
      (tokenRest g text sus dm).harmony = true) := by
  refine ⟨by decide, ?_, ?_⟩
  · intro g text sus dm hs
    constructor <;> simp [tokenRest, hs]
  · intro g text sus dm hb
    cases hs : softWrapped (harmonyText text) <;>
      simp [tokenRest, hs, hb]

/-- Witness for C6 at the unbracketed soft group `"_ab_"`. -/
theorem soft_priority_witness :
    (tokenRest [] "_ab_".toList false 1).emphasis = "soft" ∧
    (tokenRest [] "_ab_".toList false 1).text =
      stripOuter (harmonyText "_ab_".toList) :=
  soft_priority_after_brackets.2.1 [] "_ab_".toList false 1 (by decide)

/-! ### Claim C7: loud detection consults shift only on alphabetic keys -/

/-- The group of claim C7's counterexample: `'A'` and `'b'` typed without
shift (e.g. caps lock), then `'!'` typed with shift held. -/
def c7group : List Key :=
  [{ char := 'A' }, { char := 'b' }, { char := '!', shift := true }]

/-- Counterexample to claim C7: in `c7group` some keystroke has `shift`
set and the group contains an uppercase letter (and it is not soft, has
alphabetic characters, and is not all-uppercase, so the claim's second
branch applies and predicts `"loud"`), yet the produced emphasis is
`"none"` — the code consults `shift` only on alphabetic keystrokes. -/
theorem loud_any_shift_counterexample :
    (groupToken c7group).emphasis = "none" ∧
    c7group.any (·.shift) = true ∧
    (rawText c7group).filter (·.isAlpha) ≠ [] ∧
    ((rawText c7group).filter (·.isAlpha)).all (·.isUpper) = false ∧
    ((rawText c7group).filter (·.isAlpha)).any (·.isUpper) = true ∧
    softWrapped (harmonyText (rawText c7group)) = false := by
  refine ⟨?_, ?_, ?_, ?_, ?_, ?_⟩ <;> decide

/-- Claim C7 as amended: for a group whose post-harmony text does not match
the soft pattern, the emphasis is `"loud"` when the alphabetic characters
are non-empty and all uppercase; otherwise `"loud"` when some *alphabetic*
keystroke of the group had shift set and the text has an uppercase letter;
otherwise `"none"` (in particular, a purely punctuation group is
`"none"`). -/
theorem loud_detection_characterization (g : List Key) (text : List Char)
    (sus : Bool) (dm : ℚ)
    (hns : softWrapped (harmonyText text) = false) :
    (tokenRest g text sus dm).emphasis =
      (let alpha := (harmonyText text).filter (·.isAlpha)
       if alpha ≠ [] ∧ alpha.all (·.isUpper) = true then "loud"
       else if anyShiftAlpha g = true ∧ alpha.any (·.isUpper) = true then "loud"
       else "none") := by
  have hemph : (tokenRest g text sus dm).emphasis =
      loudEmphasis g (harmonyText text) := by
    simp [tokenRest, hns]
  rw [hemph]
  unfold loudEmphasis
  cases halpha : (harmonyText text).filter (·.isAlpha) with
  | nil => simp [halpha]
  | cons c cs =>
    cases hall : (c :: cs).all (·.isUpper) <;>
      cases hshift : anyShiftAlpha g <;>
        cases hup : (c :: cs).any (·.isUpper) <;>
          simp [halpha, hall, hshift, hup]

/-- Witness for the amended C7 at the all-uppercase group `"AB"`. -/
theorem loud_detection_characterization_witness :
    (tokenRest [] "AB".toList false 1).emphasis =
      (let alpha := (harmonyText "AB".toList).filter (·.isAlpha)
       if alpha ≠ [] ∧ alpha.all (·.isUpper) = true then "loud"
       else if anyShiftAlpha [] = true ∧ alpha.any (·.isUpper) = true then "loud"
       else "none") :=
  loud_detection_characterization [] "AB".toList false 1 (by decide)

/-! ### Claim C8: delimiter characters in token texts -/

/-- Counterexample to claim C8: soft stripping removes only the outer
underscore pair, so `"_a_b_"` yields a `soft` token whose text `"a_b"`
still contains `'_'`; likewise `"......"` yields a sustained token whose
text is `"..."` (it still ends with the ellipsis delimiter). -/
theorem token_text_delimiter_counterexample :
    (parse (text_to_chars "_a_b_".toList) =
      [{ text := "a_b".toList, emphasis := "soft", sustain := false,
         harmony := false, duration_modifier := 1 }]) ∧
    '_' ∈ "a_b".toList ∧
    (parse (text_to_chars "......".toList) =
      [{ text := dots, emphasis := "none", sustain := true,
         harmony := false, duration_modifier := 2 }]) ∧
    endsWithEllipsis dots = true := by
  refine ⟨?_, ?_, ?_, ?_⟩ <;> decide

lemma getLast?_decomp :
    ∀ (t : List Char) (c : Char), t.getLast? = some c →
    t = t.dropLast ++ [c] := by
  intro t c h
  have := List.dropLast_append_getLast? c (by rw [h]; rfl)
  exact this.symm

lemma head_getLast_decomp (t : List Char) (a z : Char)
    (hh : t.head? = some a) (hl : t.getLast? = some z) (hlen : 2 ≤ t.length) :
    t = a :: ((t.drop 1).dropLast ++ [z]) := by
  cases t with
  | nil => simp at hh
  | cons b t1 =>
    simp only [List.head?_cons, Option.some_inj] at hh
    subst hh
    have ht1 : t1 ≠ [] := by
      intro he
      subst he
      simp at hlen
    have hl1 : t1.getLast? = some z := by
      cases t1 with
      | nil => exact absurd rfl ht1
      | cons c t2 =>
        rw [List.getLast?_cons_cons] at hl
        exact hl
    have hdec := getLast?_decomp t1 z hl1
    simp only [List.drop_one, List.tail_cons]
    exact congrArg (b :: ·) hdec

/-- Claim C8 as amended: each stripping step removes exactly the wrapping
delimiters it matched — a sustained group's pre-strip text is the stripped
text followed by `"..."`, a bracket-wrapped text is `'['`, the stripped
text, `']'`, and a soft-wrapped text is `'_'`, the stripped text, `'_'`
(so the final token text of a soft group reconstructs the post-harmony
text when re-wrapped in underscores).  Delimiter characters occurring
*inside* the group, away from the stripped wrapping, remain in the token
text. -/
theorem strip_removes_exactly_wrapping :
    (∀ t : List Char, endsWithEllipsis t = true → t = sustainStrip t ++ dots) ∧
    (∀ t : List Char, bracketWrapped t = true →
      t = '[' :: (stripOuter t ++ [']'])) ∧
    (∀ t : List Char, softWrapped t = true →
      t = '_' :: (stripOuter t ++ ['_'])) ∧
    (∀ (g : List Key) (text : List Char) (sus : Bool) (dm : ℚ),
      softWrapped (harmonyText text) = true →
      harmonyText text = '_' :: ((tokenRest g text sus dm).text ++ ['_'])) := by
  have hsoft : ∀ t : List Char, softWrapped t = true →
      t = '_' :: (stripOuter t ++ ['_']) := by
    intro t h
    simp only [softWrapped, Bool.and_eq_true, beq_iff_eq, decide_eq_true_eq] at h
    exact head_getLast_decomp t '_' '_' h.1.1 h.1.2 (by omega)
  refine ⟨?_, ?_, hsoft, ?_⟩
  · intro t h
    simp only [endsWithEllipsis, Bool.and_eq_true, beq_iff_eq,
      decide_eq_true_eq] at h
    have := (List.take_append_drop (t.length - 3) t).symm
    rw [h.2] at this
    exact this
  · intro t h
    simp only [bracketWrapped, Bool.and_eq_true, beq_iff_eq] at h
    have hlen : 2 ≤ t.length := by
      cases t with
      | nil => simp at h
      | cons a t1 =>
        cases t1 with
        | nil =>
          exfalso
          simp only [List.head?_cons, Option.some_inj] at h
          have h2 := h.2
          simp only [List.getLast?_singleton, Option.some_inj] at h2
          rw [h.1] at h2
          exact absurd h2 (by decide)
        | cons b t2 => simp
    exact head_getLast_decomp t '[' ']' h.1 h.2 hlen
  · intro g text sus dm h
    have htext : (tokenRest g text sus dm).text =
        stripOuter (harmonyText text) := by
      simp [tokenRest, h]
    rw [htext]
    exact hsoft (harmonyText text) h

/-- Witness for the amended C8 at `"_ab_"`. -/
theorem strip_removes_exactly_wrapping_witness :
    "_ab_".toList = '_' :: (stripOuter "_ab_".toList ++ ['_']) :=
  strip_removes_exactly_wrapping.2.2.1 "_ab_".toList (by decide)

/-! ### Claim C9: one tick is one pass; feed never processes -/

lemma parse_nil : parse [] = [] := rfl

lemma process_nil (cfg : MockLLM) : cfg.process [] = [] := rfl

lemma outputPush_nil (cap : ℕ) (buf : List PhonemeEvent) :
    outputPush cap buf [] = buf := rfl

/-- Claim C9: each `tick` consumes at most the fixed chunk of 8 oldest
keystrokes from the input queue (exactly `take`/`drop 8`), tokenizes them,
expands only when tokens were produced, pushes the resulting events, pops
exactly one event (the head, or none when the queue is empty), and returns
the snapshot of the resulting state; `feed` only appends to the input
queue and changes nothing else. -/
theorem tick_single_pass (cfg : PipelineConfig) (st : PipelineState) :
    ((tick cfg st).1.input = st.input.drop chunkSize) ∧
    ((st.input.take chunkSize).length ≤ 8) ∧
    ((tick cfg st).1.output =
      (outputPush cfg.output_capacity st.output
        (cfg.llm.process (parse (st.input.take chunkSize)))).tail) ∧
    ((tick cfg st).1.lastPhoneme =
      (outputPush cfg.output_capacity st.output
        (cfg.llm.process (parse (st.input.take chunkSize)))).head?) ∧
    ((tick cfg st).1.lastTokens =
      (if (parse (st.input.take chunkSize)).isEmpty then st.lastTokens
       else parse (st.input.take chunkSize))) ∧
    ((tick cfg st).2 = stateView cfg (tick cfg st).1) ∧
    (∀ (c : Char) (sh ct al : Bool),
      feed cfg st c sh ct al =
        { st with input := (inputPush cfg.input_capacity st.input
            ⟨c, sh, ct, al⟩) }) := by
  have hguard1 :
      (if (st.input.take chunkSize).isEmpty then []
       else parse (st.input.take chunkSize)) =
        parse (st.input.take chunkSize) := by
    cases hc : (st.input.take chunkSize).isEmpty
    · rfl
    · rw [List.isEmpty_iff.mp hc, parse_nil]
      simp
  have hguard2 :
      (if (parse (st.input.take chunkSize)).isEmpty then []
       else cfg.llm.process (parse (st.input.take chunkSize))) =
        cfg.llm.process (parse (st.input.take chunkSize)) := by
    cases hp : (parse (st.input.take chunkSize)).isEmpty
    · rfl
    · rw [List.isEmpty_iff.mp hp, process_nil]
      simp
  have hguard3 :
      (if (cfg.llm.process (parse (st.input.take chunkSize))).isEmpty
       then st.output
       else outputPush cfg.output_capacity st.output
         (cfg.llm.process (parse (st.input.take chunkSize)))) =
        outputPush cfg.output_capacity st.output
          (cfg.llm.process (parse (st.input.take chunkSize))) := by
    cases he : (cfg.llm.process (parse (st.input.take chunkSize))).isEmpty
    · rfl
    · rw [List.isEmpty_iff.mp he, outputPush_nil]
      simp
  refine ⟨?_, by simp only [List.length_take, chunkSize]; omega,
    ?_, ?_, ?_, rfl, fun c sh ct al => rfl⟩ <;>
    simp only [tick, inputConsume, outputPop, hguard1, hguard2, hguard3]

/-! ### Claim C10: lexicon misses without letters are silent -/

lemma processAux_skip (cfg : MockLLM) (tok : SheetTextToken)
    (hwp : word_to_phonemes tok.text = []) :
    ∀ (pre post : List SheetTextToken) (cursor : ℤ),
    processAux cfg cursor (pre ++ tok :: post) =
      processAux cfg cursor (pre ++ post) := by
  intro pre
  induction pre with
  | nil =>
    intro post cursor
    simp only [List.nil_append, processAux_cons, hwp, emitPhonemes_nil]
  | cons t pre' ih =>
    intro post cursor
    simp only [List.cons_append, processAux_cons]
    rw [ih post]

/-- Claim C10: a token whose text is not a lexicon key (case-insensitively)
and has no alphabetic characters expands to zero phonemes, and therefore
contributes nothing at all to the output stream of
`MockLLMProcessor.process` (removing the token from any position leaves
the emitted events unchanged — the cursor is not advanced either). -/
theorem silent_token_contributes_nothing (cfg : MockLLM)
    (pre post : List SheetTextToken) (tok : SheetTextToken)
    (hkey : lookupWord (tok.text.map Char.toLower) = none)
    (halpha : ∀ c ∈ tok.text, c.isAlpha = false) :
    word_to_phonemes tok.text = [] ∧
    cfg.process (pre ++ tok :: post) = cfg.process (pre ++ post) := by
  have hfil : tok.text.filter (·.isAlpha) = [] := by
    rw [List.filter_eq_nil_iff]
    intro c hc
    simp [halpha c hc]
  have hwp : word_to_phonemes tok.text = [] := by
    simp only [word_to_phonemes]
    rw [hkey, hfil]
    rfl
  exact ⟨hwp, processAux_skip cfg tok hwp pre post 0⟩

/-- Witness for C10 at the standalone sustain-only token `"..."`. -/
theorem silent_token_witness :
    word_to_phonemes (SheetTextToken.text
      { text := dots, emphasis := "none", sustain := true, harmony := false,
        duration_modifier := 2 }) = [] ∧
    ({} : MockLLM).process ([] ++
        ({ text := dots, emphasis := "none", sustain := true,
           harmony := false, duration_modifier := 2 } : SheetTextToken) ::
          []) =
      ({} : MockLLM).process ([] ++ []) :=
  silent_token_contributes_nothing {} [] []
    { text := dots, emphasis := "none", sustain := true, harmony := false,
      duration_modifier := 2 }
    (by decide) (by decide)

end Mavis
